import Mathlib

/-!
Verification of the document-reconstruction pipeline of the MarkItDown
Streamlit front-end (`src/main.py`): the caption/line merge pass, the
document-global figure numbering, the word-to-line position association,
and the local LLM client's payload guard and failure handling.

Python floats are modelled by `ℚ` (only comparisons, sums and divisions by
list lengths occur), Python strings holding structured data by `List Char`,
and the dynamic message/response dictionaries by explicit structures carrying
exactly the fields the code reads.
-/

/-- A caption produced for one embedded image on a page: its vertical
midpoint `fig_y_mid` and its rendered text `"Figure N: <desc>"`
(src/main.py line 199). -/
abbrev Fig := ℚ × String

/-- One extracted text line paired with its approximate vertical position
`avg_y`, which is `none` when no word matched the line
(src/main.py lines 176-183). -/
abbrev PosLine := String × Option ℚ

/-- The inner `while` loop of the merge pass (src/main.py lines 209-215):
starting at the caption cursor, emit caption texts while the current line has
a defined position `avg_y` and the pending caption's midpoint satisfies
`fig_y >= avg_y`; stop at the first pending caption below that position, or
at once when `avg_y` is `None`.  The cursor `fig_idx` is modelled by the
still-pending suffix of the caption list; the result is the pair of emitted
caption texts and the remaining suffix. -/
def flushFigs : Option ℚ → List Fig → List String × List Fig
  | _, [] => ([], [])
  | none, f :: rest => ([], f :: rest)
  | some y, f :: rest =>
      if y ≤ f.1 then
        let out := flushFigs (some y) rest
        (f.2 :: out.1, out.2)
      else ([], f :: rest)

/-- The merge pass of `process_pdf_with_images_and_text`
(src/main.py lines 204-220): a single forward pass over the page's lines,
emitting each line and then flushing pending captions, followed by the
trailing loop that appends all captions still pending after the last
line. -/
def mergeFigs : List PosLine → List Fig → List String
  | [], figs => figs.map Prod.snd
  | (ln, avgY) :: rest, figs =>
      let out := flushFigs avgY figs
      ln :: (out.1 ++ mergeFigs rest out.2)

/-- A merged output line tagged by its origin: an original text line of the
page, or an inserted figure caption.  The code emits plain strings; the tag
records which of the two `append` sites (line 208 versus lines 212/219 of
src/main.py) produced the entry. -/
inductive MLine where
  | text (s : String)
  | fig (s : String)
deriving DecidableEq

/-- The string the tagged merged line stands for. -/
def MLine.render : MLine → String
  | .text s => s
  | .fig s => s

/-- Project a tagged merged line to its text when it is an original page
line, dropping figure captions. -/
def MLine.textOf : MLine → Option String
  | .text s => some s
  | .fig _ => none

/-- Tagged variant of `flushFigs`; identical control flow, but the emitted
entries are tagged as figure captions. -/
def flushFigsT : Option ℚ → List Fig → List MLine × List Fig
  | _, [] => ([], [])
  | none, f :: rest => ([], f :: rest)
  | some y, f :: rest =>
      if y ≤ f.1 then
        let out := flushFigsT (some y) rest
        (MLine.fig f.2 :: out.1, out.2)
      else ([], f :: rest)

/-- Tagged variant of `mergeFigs`; identical control flow, with page lines
tagged `MLine.text` and captions tagged `MLine.fig`. -/
def mergeFigsT : List PosLine → List Fig → List MLine
  | [], figs => figs.map (fun f => MLine.fig f.2)
  | (ln, avgY) :: rest, figs =>
      let out := flushFigsT avgY figs
      MLine.text ln :: (out.1 ++ mergeFigsT rest out.2)

lemma flushFigs_nil (avgY : Option ℚ) : flushFigs avgY [] = ([], []) := by
  cases avgY <;> rfl

lemma flushFigs_none (figs : List Fig) : flushFigs none figs = ([], figs) := by
  cases figs <;> rfl

lemma flushFigs_cons_le {y : ℚ} {f : Fig} (rest : List Fig) (h : y ≤ f.1) :
    flushFigs (some y) (f :: rest) =
      (f.2 :: (flushFigs (some y) rest).1, (flushFigs (some y) rest).2) := by
  simp [flushFigs, h]

lemma flushFigs_cons_gt {y : ℚ} {f : Fig} (rest : List Fig) (h : ¬ y ≤ f.1) :
    flushFigs (some y) (f :: rest) = ([], f :: rest) := by
  simp [flushFigs, h]

lemma mergeFigs_nil (figs : List Fig) : mergeFigs [] figs = figs.map Prod.snd := rfl

lemma mergeFigs_cons (ln : String) (avgY : Option ℚ) (rest : List PosLine)
    (figs : List Fig) :
    mergeFigs ((ln, avgY) :: rest) figs =
      ln :: ((flushFigs avgY figs).1 ++ mergeFigs rest (flushFigs avgY figs).2) := rfl

/-- With no pending captions, the merge pass returns the page's lines
unchanged. -/
lemma mergeFigs_no_figs (ls : List PosLine) : mergeFigs ls [] = ls.map Prod.fst := by
  induction ls with
  | nil => rfl
  | cons p rest ih =>
      obtain ⟨ln, avgY⟩ := p
      rw [mergeFigs_cons, flushFigs_nil]
      simp [ih]

/-- The `while` loop is exactly a take-while over the pending suffix:
emitted captions are the longest prefix with midpoint `≥` the line
position. -/
lemma flushFigs_some_eq (y : ℚ) (figs : List Fig) :
    flushFigs (some y) figs =
      ((figs.takeWhile fun f => decide (y ≤ f.1)).map Prod.snd,
        figs.dropWhile fun f => decide (y ≤ f.1)) := by
  induction figs with
  | nil => rfl
  | cons f rest ih =>
      by_cases h : y ≤ f.1
      · rw [flushFigs_cons_le rest h, ih]
        simp [List.takeWhile_cons, List.dropWhile_cons, h]
      · rw [flushFigs_cons_gt rest h]
        simp [List.takeWhile_cons, List.dropWhile_cons, h]

/-- If every pending caption has midpoint `≥` the line position, the flush
drains the whole pending list. -/
lemma flushFigs_all {y : ℚ} {figs : List Fig} (h : ∀ f ∈ figs, y ≤ f.1) :
    flushFigs (some y) figs = (figs.map Prod.snd, []) := by
  induction figs with
  | nil => rfl
  | cons f rest ih =>
      rw [flushFigs_cons_le rest (h f (List.mem_cons_self f rest))]
      rw [ih fun g hg => h g (List.mem_cons_of_mem f hg)]
      rfl

lemma flushFigsT_nil (avgY : Option ℚ) : flushFigsT avgY [] = ([], []) := by
  cases avgY <;> rfl

lemma flushFigsT_none (figs : List Fig) : flushFigsT none figs = ([], figs) := by
  cases figs <;> rfl

lemma flushFigsT_cons_le {y : ℚ} {f : Fig} (rest : List Fig) (h : y ≤ f.1) :
    flushFigsT (some y) (f :: rest) =
      (MLine.fig f.2 :: (flushFigsT (some y) rest).1, (flushFigsT (some y) rest).2) := by
  simp [flushFigsT, h]

lemma flushFigsT_cons_gt {y : ℚ} {f : Fig} (rest : List Fig) (h : ¬ y ≤ f.1) :
    flushFigsT (some y) (f :: rest) = ([], f :: rest) := by
  simp [flushFigsT, h]

/-- The tagged flush renders to the untagged flush: same emitted texts, same
remaining suffix. -/
lemma flushFigsT_render (avgY : Option ℚ) (figs : List Fig) :
    (flushFigsT avgY figs).1.map MLine.render = (flushFigs avgY figs).1 ∧
      (flushFigsT avgY figs).2 = (flushFigs avgY figs).2 := by
  induction figs with
  | nil => rw [flushFigsT_nil, flushFigs_nil]; exact ⟨rfl, rfl⟩
  | cons f rest ih =>
      cases avgY with
      | none => rw [flushFigsT_none, flushFigs_none]; exact ⟨rfl, rfl⟩
      | some y =>
          by_cases h : y ≤ f.1
          · rw [flushFigsT_cons_le rest h, flushFigs_cons_le rest h]
            exact ⟨by simp [MLine.render, ih.1], ih.2⟩
          · rw [flushFigsT_cons_gt rest h, flushFigs_cons_gt rest h]
            exact ⟨rfl, rfl⟩

/-- Every entry the flush emits is a figure caption; none is an original
page line. -/
lemma flushFigsT_textOf (avgY : Option ℚ) (figs : List Fig) :
    (flushFigsT avgY figs).1.filterMap MLine.textOf = [] := by
  induction figs with
  | nil => rw [flushFigsT_nil]; rfl
  | cons f rest ih =>
      cases avgY with
      | none => rw [flushFigsT_none]; rfl
      | some y =>
          by_cases h : y ≤ f.1
          · rw [flushFigsT_cons_le rest h]
            simpa [MLine.textOf] using ih
          · rw [flushFigsT_cons_gt rest h]; rfl

lemma mergeFigsT_cons (ln : String) (avgY : Option ℚ) (rest : List PosLine)
    (figs : List Fig) :
    mergeFigsT ((ln, avgY) :: rest) figs =
      MLine.text ln ::
        ((flushFigsT avgY figs).1 ++ mergeFigsT rest (flushFigsT avgY figs).2) := rfl

/-- The tagged merge renders to the merge the code performs. -/
lemma mergeFigsT_render (ls : List PosLine) (figs : List Fig) :
    (mergeFigsT ls figs).map MLine.render = mergeFigs ls figs := by
  induction ls generalizing figs with
  | nil => simp [mergeFigsT, mergeFigs_nil, MLine.render]
  | cons p rest ih =>
      obtain ⟨ln, avgY⟩ := p
      rw [mergeFigsT_cons, mergeFigs_cons]
      simp [MLine.render, (flushFigsT_render avgY figs).1, (flushFigsT_render avgY figs).2,
        ih]

/-- C2. The merge pass over a page's lines, one step at a time: after a line
with defined position `y`, the code emits exactly the pending captions taken
while their midpoint is `≥ y` (the cursor advancing past them, stopping at
the first pending caption with midpoint `< y` or at the end of the list),
and then continues with the remaining suffix; after a line with undefined
position it emits no caption at all. -/
theorem mergeFigs_step_characterization :
    (∀ (ln : String) (y : ℚ) (rest : List PosLine) (figs : List Fig),
      mergeFigs ((ln, some y) :: rest) figs =
        ln :: ((figs.takeWhile fun f => decide (y ≤ f.1)).map Prod.snd ++
          mergeFigs rest (figs.dropWhile fun f => decide (y ≤ f.1)))) ∧
    (∀ (ln : String) (rest : List PosLine) (figs : List Fig),
      mergeFigs ((ln, none) :: rest) figs = ln :: mergeFigs rest figs) := by
  constructor
  · intro ln y rest figs
    rw [mergeFigs_cons, flushFigs_some_eq]
  · intro ln rest figs
    rw [mergeFigs_cons, flushFigs_none]
    rfl

/-- C6. The merge is order-preserving: deleting all figure entries from the
tagged merged output reproduces the page's original line sequence exactly;
the tagged output renders to the string output the code produces; and with
zero captions the merge returns the lines unchanged. -/
theorem mergeFigs_order_preserving :
    (∀ (ls : List PosLine) (figs : List Fig),
      (mergeFigsT ls figs).filterMap MLine.textOf = ls.map Prod.fst) ∧
    (∀ (ls : List PosLine) (figs : List Fig),
      (mergeFigsT ls figs).map MLine.render = mergeFigs ls figs) ∧
    (∀ ls : List PosLine, mergeFigs ls [] = ls.map Prod.fst) := by
  refine ⟨?_, mergeFigsT_render, mergeFigs_no_figs⟩
  intro ls
  induction ls with
  | nil =>
      intro figs
      simp [mergeFigsT, MLine.textOf, List.filterMap_map]
  | cons p rest ih =>
      intro figs
      obtain ⟨ln, avgY⟩ := p
      rw [mergeFigsT_cons]
      simp [MLine.textOf, List.filterMap_append, flushFigsT_textOf, ih]

/-- Placement the merge actually performs when the caption list is sorted:
all captions are inserted as one block, in list order, immediately after the
first line whose defined position is `≤ m` (where `m` is the least caption
midpoint, i.e. the head of the sorted list); lines with undefined positions
never trigger the insertion; if no line qualifies, the block lands after the
last line. -/
def insertBlockAfterFirstAt (figs : List Fig) (m : ℚ) : List PosLine → List String
  | [] => figs.map Prod.snd
  | (ln, avgY) :: rest =>
      match avgY with
      | some y =>
          if y ≤ m then ln :: (figs.map Prod.snd ++ rest.map Prod.fst)
          else ln :: insertBlockAfterFirstAt figs m rest
      | none => ln :: insertBlockAfterFirstAt figs m rest

/-- C1, counterexample. For lines `["Title", "Body text"]` at positions
`[10, 50]` and one caption at midpoint `60`, the merged order is not the
claimed `["Title", "Body text", "Figure 1: <caption>"]`: the code's flush
condition `fig_y >= avg_y` already fires at `"Title"` (60 ≥ 10), so the
caption is emitted right after the first line. -/
theorem mergeFigs_midpoint60_counterexample :
    mergeFigs [("Title", some 10), ("Body text", some 50)]
        [(60, "Figure 1: <caption>")] ≠
      ["Title", "Body text", "Figure 1: <caption>"] := by
  decide

/-- C1, amended. When the caption list is sorted ascending by midpoint with
least midpoint `m`, the merged output carries every caption, in caption-list
order, in a single block placed immediately after the first line whose
defined position is `≤ m` — not after the last such line — and after the
final line when no line qualifies; in particular, for lines
`["Title", "Body text"]` at positions `[10, 50]` and one caption at midpoint
`60`, the merged order is `["Title", "Figure 1: <caption>", "Body text"]`. -/
theorem mergeFigs_block_after_first_le (ls : List PosLine) (m : ℚ) (t : String)
    (fs : List Fig) (hs : ∀ f ∈ fs, m ≤ f.1) :
    mergeFigs ls ((m, t) :: fs) = insertBlockAfterFirstAt ((m, t) :: fs) m ls ∧
      mergeFigs [("Title", some 10), ("Body text", some 50)]
          [(60, "Figure 1: <caption>")] =
        ["Title", "Figure 1: <caption>", "Body text"] := by
  refine ⟨?_, by decide⟩
  induction ls with
  | nil => rw [mergeFigs_nil]; rfl
  | cons p rest ih =>
      obtain ⟨ln, avgY⟩ := p
      cases avgY with
      | none =>
          rw [mergeFigs_cons, flushFigs_none]
          simpa [insertBlockAfterFirstAt] using ih
      | some y =>
          by_cases h : y ≤ m
          · have hall : ∀ f ∈ (m, t) :: fs, y ≤ f.1 := by
              intro f hf
              rcases List.mem_cons.mp hf with hf | hf
              · rw [hf]; exact h
              · exact le_trans h (hs f hf)
            rw [mergeFigs_cons, flushFigs_all hall]
            simp [insertBlockAfterFirstAt, h, mergeFigs_no_figs]
          · have hgt : ¬ y ≤ (m, t).1 := h
            rw [mergeFigs_cons, flushFigs_cons_gt fs hgt]
            simpa [insertBlockAfterFirstAt, h] using ih

/-- Witness for the amended C1: the scenario's caption list `[(60, …)]` is
sorted (its tail is empty), and applying the theorem there evaluates both
sides of the block-placement equation on concrete input. -/
theorem mergeFigs_block_after_first_le_witness :
    (∀ f ∈ ([] : List Fig), (60 : ℚ) ≤ f.1) ∧
      mergeFigs [("Title", some 10), ("Body text", some 50)]
          [((60 : ℚ), "Figure 1: <caption>")] =
        insertBlockAfterFirstAt [((60 : ℚ), "Figure 1: <caption>")] 60
          [("Title", some 10), ("Body text", some 50)] :=
  ⟨fun f hf => absurd hf (List.not_mem_nil f),
    (mergeFigs_block_after_first_le
      [("Title", some 10), ("Body text", some 50)] 60 "Figure 1: <caption>" []
      (fun f hf => absurd hf (List.not_mem_nil f))).1⟩

/-- Insert one caption into an already-sorted caption list, before the first
entry whose midpoint is `≥` its own: the insertion step of a stable
ascending sort by midpoint. -/
def insertFig (f : Fig) : List Fig → List Fig
  | [] => [f]
  | g :: gs => if f.1 ≤ g.1 then f :: g :: gs else g :: insertFig f gs

/-- Model of `figs.sort(key=lambda f: f[0])` (src/main.py line 202): a
stable ascending insertion sort by vertical midpoint.  Python's `list.sort`
is stable and ascending, which determines its output uniquely; stable
insertion sort realizes it. -/
def sortFigs : List Fig → List Fig
  | [] => []
  | f :: fs => insertFig f (sortFigs fs)

lemma mem_insertFig {x f : Fig} {l : List Fig} :
    x ∈ insertFig f l ↔ x = f ∨ x ∈ l := by
  induction l with
  | nil => simp [insertFig]
  | cons g gs ih =>
      by_cases h : f.1 ≤ g.1
      · simp [insertFig, h]
      · simp [insertFig, h, ih]
        tauto

lemma insertFig_perm (f : Fig) (l : List Fig) :
    List.Perm (insertFig f l) (f :: l) := by
  induction l with
  | nil => simp [insertFig]
  | cons g gs ih =>
      by_cases h : f.1 ≤ g.1
      · simp [insertFig, h]
      · rw [insertFig, if_neg h]
        exact (ih.cons g).trans (List.Perm.swap f g gs)

lemma sortFigs_perm (l : List Fig) : List.Perm (sortFigs l) l := by
  induction l with
  | nil => rfl
  | cons f fs ih => exact (insertFig_perm f (sortFigs fs)).trans (ih.cons f)

lemma insertFig_sorted {f : Fig} {l : List Fig}
    (hl : l.Pairwise fun a b => a.1 ≤ b.1) :
    (insertFig f l).Pairwise fun a b => a.1 ≤ b.1 := by
  induction l with
  | nil => simp [insertFig]
  | cons g gs ih =>
      rcases List.pairwise_cons.mp hl with ⟨hg, hgs⟩
      by_cases h : f.1 ≤ g.1
      · rw [insertFig, if_pos h]
        refine List.pairwise_cons.mpr ⟨?_, hl⟩
        intro x hx
        rcases List.mem_cons.mp hx with hx | hx
        · rw [hx]; exact h
        · exact le_trans h (hg x hx)
      · rw [insertFig, if_neg h]
        refine List.pairwise_cons.mpr ⟨?_, ih hgs⟩
        intro x hx
        rcases mem_insertFig.mp hx with hx | hx
        · rw [hx]; exact le_of_lt (lt_of_not_le h)
        · exact hg x hx

/-- The stable sort produces an ascending caption list. -/
lemma sortFigs_sorted (l : List Fig) :
    (sortFigs l).Pairwise fun a b => a.1 ≤ b.1 := by
  induction l with
  | nil => exact List.Pairwise.nil
  | cons f fs ih => exact insertFig_sorted ih

lemma filter_insertFig (q : ℚ) (f : Fig) (l : List Fig) :
    (insertFig f l).filter (fun g => decide (g.1 = q)) =
      if f.1 = q then f :: l.filter (fun g => decide (g.1 = q))
      else l.filter (fun g => decide (g.1 = q)) := by
  induction l with
  | nil => by_cases hf : f.1 = q <;> simp [insertFig, hf]
  | cons g gs ih =>
      by_cases h : f.1 ≤ g.1
      · rw [insertFig, if_pos h]
        by_cases hf : f.1 = q <;> simp [List.filter_cons, hf]
      · have hlt : g.1 < f.1 := lt_of_not_le h
        rw [insertFig, if_neg h]
        by_cases hf : f.1 = q
        · have hg : ¬ g.1 = q := fun hgq => (ne_of_lt hlt) (hgq.trans hf.symm)
          simp [List.filter_cons, hf, hg, ih]
        · by_cases hg : g.1 = q <;> simp [List.filter_cons, hf, hg, ih]

/-- Stability of the sort: restricted to any single midpoint value, the
sorted list keeps the captions in their original (discovery) order. -/
lemma sortFigs_stable (l : List Fig) (q : ℚ) :
    (sortFigs l).filter (fun g => decide (g.1 = q)) =
      l.filter (fun g => decide (g.1 = q)) := by
  induction l with
  | nil => rfl
  | cons f fs ih =>
      rw [sortFigs, filter_insertFig]
      by_cases hf : f.1 = q <;> simp [hf, ih]

/-- C7. On a page with a non-empty caption list in which no line has a
defined position, the merge appends all captions after the last line, in the
order of the sorted caption list; that list is ascending by midpoint, is a
permutation of the discovered captions, and keeps captions with equal
midpoints in discovery order (stability). -/
theorem mergeFigs_all_undefined (ls : List PosLine) (fs : List Fig)
    (_hfs : fs ≠ []) (h : ∀ p ∈ ls, p.2 = none) :
    mergeFigs ls (sortFigs fs) = ls.map Prod.fst ++ (sortFigs fs).map Prod.snd ∧
      (sortFigs fs).Pairwise (fun a b => a.1 ≤ b.1) ∧
      List.Perm (sortFigs fs) fs ∧
      ∀ q : ℚ, (sortFigs fs).filter (fun g => decide (g.1 = q)) =
        fs.filter (fun g => decide (g.1 = q)) := by
  refine ⟨?_, sortFigs_sorted fs, sortFigs_perm fs, sortFigs_stable fs⟩
  induction ls with
  | nil => rw [mergeFigs_nil]; rfl
  | cons p rest ih =>
      obtain ⟨ln, avgY⟩ := p
      have hnone : avgY = none := h (ln, avgY) (List.mem_cons_self _ _)
      subst hnone
      rw [mergeFigs_cons, flushFigs_none]
      simpa using ih fun p hp => h p (List.mem_cons_of_mem _ hp)

/-- Witness for C7 at a concrete page: one positionless line and two
captions given in descending midpoint order. -/
theorem mergeFigs_all_undefined_witness :
    ([((2 : ℚ), "b"), ((1 : ℚ), "a")] ≠ ([] : List Fig)) ∧
      (∀ p ∈ [(("only line" : String), (none : Option ℚ))], p.2 = none) ∧
      mergeFigs [("only line", none)] (sortFigs [((2 : ℚ), "b"), ((1 : ℚ), "a")]) =
        [("only line", (none : Option ℚ))].map Prod.fst ++
          (sortFigs [((2 : ℚ), "b"), ((1 : ℚ), "a")]).map Prod.snd :=
  ⟨by decide, by decide,
    (mergeFigs_all_undefined [("only line", none)] [((2 : ℚ), "b"), ((1 : ℚ), "a")]
      (by decide) (by decide)).1⟩

/-- One embedded image of a PDF page as the code consumes it: the bounding
box fields `x0, y0, x1, y1` read from `page.images` (src/main.py line 192)
and the description string the LLM returns for the cropped region
(`describe_image_with_llm`, line 197), which the numbering logic treats as
an opaque input. -/
structure PdfImg where
  x0 : ℚ
  y0 : ℚ
  x1 : ℚ
  y1 : ℚ
  desc : String

/-- Vertical midpoint `fig_y_mid = y0 + (y1 - y0) / 2.0` of an image
(src/main.py line 198). -/
def PdfImg.mid (im : PdfImg) : ℚ := im.y0 + (im.y1 - im.y0) / 2

/-- The per-page figure loop (src/main.py lines 191-200): for each image of
the page, in discovery order, record its midpoint and the caption
`"Figure {figure_counter}: {fig_desc}"`, incrementing the counter; returns
the page's caption list together with the updated counter. -/
def pageFigs (c : ℕ) : List PdfImg → List Fig × ℕ
  | [] => ([], c)
  | im :: rest =>
      let out := pageFigs (c + 1) rest
      ((im.mid, "Figure " ++ toString c ++ ": " ++ im.desc) :: out.1, out.2)

/-- The page loop of `process_pdf_with_images_and_text` restricted to the
caption-producing state: the counter is threaded from page to page. -/
def docFigsAux (c : ℕ) : List (List PdfImg) → List (List Fig)
  | [] => []
  | pg :: rest =>
      let out := pageFigs c pg
      out.1 :: docFigsAux out.2 rest

/-- All pages' caption lists for one document, with `figure_counter`
initialized to 1 (src/main.py line 166). -/
def docFigs (pages : List (List PdfImg)) : List (List Fig) := docFigsAux 1 pages

/-- Contiguous numbering of a flat image sequence starting at `c`: the i-th
image (0-based) gets figure index `c + i`.  This is the spec's reading of
"strictly increasing and contiguous starting at 1 across the document",
ignoring page boundaries. -/
def flatFigs (c : ℕ) : List PdfImg → List Fig
  | [] => []
  | im :: rest =>
      (im.mid, "Figure " ++ toString c ++ ": " ++ im.desc) :: flatFigs (c + 1) rest

lemma pageFigs_eq_flatFigs (c : ℕ) (imgs : List PdfImg) :
    pageFigs c imgs = (flatFigs c imgs, c + imgs.length) := by
  induction imgs generalizing c with
  | nil => simp [pageFigs, flatFigs]
  | cons im rest ih =>
      rw [pageFigs, flatFigs, ih (c + 1)]
      refine Prod.ext rfl ?_
      simp only [List.length_cons]
      omega

lemma flatFigs_append (c : ℕ) (l₁ l₂ : List PdfImg) :
    flatFigs c (l₁ ++ l₂) = flatFigs c l₁ ++ flatFigs (c + l₁.length) l₂ := by
  induction l₁ generalizing c with
  | nil => simp [flatFigs]
  | cons im rest ih =>
      rw [List.cons_append, flatFigs, flatFigs, ih (c + 1), List.cons_append]
      have harith : c + 1 + rest.length = c + (im :: rest).length := by
        simp only [List.length_cons]
        omega
      rw [harith]

lemma docFigsAux_flatten (c : ℕ) (pages : List (List PdfImg)) :
    (docFigsAux c pages).flatten = flatFigs c pages.flatten := by
  induction pages generalizing c with
  | nil => rfl
  | cons pg rest ih =>
      rw [docFigsAux, List.flatten_cons, List.flatten_cons, flatFigs_append,
        pageFigs_eq_flatFigs]
      simp [ih]

/-- C5. Figure numbering is document-global, contiguous and strictly
increasing from 1: flattening the per-page caption lists in page order gives
exactly the flat numbering `1, 2, 3, …` of all images in page order and
page-local discovery order (the counter is never reset between pages); in
particular a document of two pages with images `[a, b]` and `[d]` yields
captions numbered `Figure 1`, `Figure 2`, `Figure 3`. -/
theorem docFigs_contiguous_numbering :
    (∀ pages : List (List PdfImg),
      (docFigs pages).flatten = flatFigs 1 pages.flatten) ∧
    (∀ a b d : PdfImg,
      (docFigs [[a, b], [d]]).map (fun pg => pg.map Prod.snd) =
        [["Figure 1: " ++ a.desc, "Figure 2: " ++ b.desc],
          ["Figure 3: " ++ d.desc]]) := by
  constructor
  · intro pages
    exact docFigsAux_flatten 1 pages
  · intro a b d
    have h1 : ("Figure " ++ toString 1 ++ ": ") = "Figure 1: " := by decide
    have h2 : ("Figure " ++ toString 2 ++ ": ") = "Figure 2: " := by decide
    have h3 : ("Figure " ++ toString 3 ++ ": ") = "Figure 3: " := by decide
    simp only [docFigs, docFigsAux, pageFigs, List.map_cons, List.map_nil]
    rw [← h1, ← h2, ← h3]

/-- Python strings manipulated character-wise are modelled as `List Char`. -/
abbrev Chars := List Char

/-- Auxiliary check that `needle` begins `hay`, character by character. -/
def beginsWith : Chars → Chars → Bool
  | [], _ => true
  | _ :: _, [] => false
  | c :: cs, d :: ds => c == d && beginsWith cs ds

/-- Python's substring test `needle in hay`: `needle` begins some suffix of
`hay` (the empty needle is contained in every string). -/
def containsSub (needle : Chars) : Chars → Bool
  | [] => beginsWith needle []
  | d :: ds => beginsWith needle (d :: ds) || containsSub needle ds

lemma beginsWith_iff (n h : Chars) : beginsWith n h = true ↔ ∃ r, h = n ++ r := by
  induction n generalizing h with
  | nil => simp [beginsWith]
  | cons c cs ih =>
      cases h with
      | nil => simp [beginsWith]
      | cons d ds =>
          simp only [beginsWith, Bool.and_eq_true, beq_iff_eq, ih,
            List.cons_append, List.cons.injEq]
          constructor
          · rintro ⟨rfl, r, rfl⟩
            exact ⟨r, rfl, rfl⟩
          · rintro ⟨r, rfl, rfl⟩
            exact ⟨rfl, r, rfl⟩

/-- Correctness of the substring test: it holds exactly when the needle
occurs contiguously inside the haystack. -/
lemma containsSub_iff (n h : Chars) :
    containsSub n h = true ↔ ∃ l r, h = l ++ n ++ r := by
  induction h with
  | nil =>
      simp only [containsSub, beginsWith_iff]
      constructor
      · rintro ⟨r, hr⟩
        exact ⟨[], r, by simpa using hr⟩
      · rintro ⟨l, r, hr⟩
        refine ⟨r, ?_⟩
        rcases List.append_eq_nil.mp hr.symm with ⟨h1, h2⟩
        rcases List.append_eq_nil.mp h1 with ⟨h3, h4⟩
        simp [h2, h3, h4]
  | cons d ds ih =>
      rw [containsSub]
      simp only [Bool.or_eq_true, beginsWith_iff, ih]
      constructor
      · rintro (⟨r, hr⟩ | ⟨l, r, hr⟩)
        · exact ⟨[], r, by simpa using hr⟩
        · exact ⟨d :: l, r, by simp [hr]⟩
      · rintro ⟨l, r, hr⟩
        cases l with
        | nil => exact Or.inl ⟨r, by simpa using hr⟩
        | cons x xs =>
            rw [List.cons_append, List.cons_append] at hr
            injection hr with hdx hds
            exact Or.inr ⟨xs, r, by simp [hds]⟩

/-- One word item returned by `page.extract_words()` as the code consumes
it: its text `w['text']` and its vertical coordinate `w['top']`
(src/main.py lines 178-180). -/
structure Word where
  text : Chars
  top : ℚ

/-- The comprehension `[w for w in words if w['text'] in ln]`
(src/main.py line 178). -/
def lineWords (words : List Word) (ln : Chars) : List Word :=
  words.filter fun w => containsSub w.text ln

/-- The approximate line position (src/main.py lines 178-182): the average
of the matched words' `top` coordinates when at least one word's text occurs
in the line, `None` otherwise. -/
def linePos (words : List Word) (ln : Chars) : Option ℚ :=
  if (lineWords words ln).length = 0 then none
  else some (((lineWords words ln).map Word.top).sum / ((lineWords words ln).length : ℚ))

/-- C9. A line's associated word set is exactly the words whose text occurs
as a contiguous substring of the line; the line's position is undefined
exactly when no word matches; and a defined position `y` is the arithmetic
mean of the matched words' top coordinates (stated as `y · #matched = Σ
tops`). -/
theorem linePos_spec (words : List Word) (ln : Chars) :
    (∀ w, w ∈ lineWords words ln ↔ w ∈ words ∧ ∃ l r, ln = l ++ w.text ++ r) ∧
    (linePos words ln = none ↔ ∀ w ∈ words, ¬ ∃ l r, ln = l ++ w.text ++ r) ∧
    (∀ y, linePos words ln = some y →
      y * ((lineWords words ln).length : ℚ) =
        ((lineWords words ln).map Word.top).sum) := by
  have hmem : ∀ w, w ∈ lineWords words ln ↔ w ∈ words ∧ ∃ l r, ln = l ++ w.text ++ r := by
    intro w
    rw [lineWords, List.mem_filter, containsSub_iff]
  refine ⟨hmem, ?_, ?_⟩
  · constructor
    · intro hnone w hw hsub
      have hne : (lineWords words ln).length ≠ 0 := by
        have : w ∈ lineWords words ln := (hmem w).mpr ⟨hw, hsub⟩
        exact List.length_pos.mpr (List.ne_nil_of_mem this) |>.ne'
      rw [linePos, if_neg hne] at hnone
      exact Option.some_ne_none _ hnone
    · intro hno
      have hnil : lineWords words ln = [] := by
        refine List.eq_nil_iff_forall_not_mem.mpr fun w hw => ?_
        rcases (hmem w).mp hw with ⟨hw', hsub⟩
        exact hno w hw' hsub
      simp [linePos, hnil]
  · intro y hy
    rw [linePos] at hy
    by_cases hlen : (lineWords words ln).length = 0
    · rw [if_pos hlen] at hy
      exact absurd hy (Option.noConfusion)
    · rw [if_neg hlen] at hy
      have hy' := Option.some.inj hy
      have hne : ((lineWords words ln).length : ℚ) ≠ 0 := by
        exact_mod_cast hlen
      rw [← hy', div_mul_cancel₀ _ hne]

/-- Python's `str.split(",")`: cut the character list at every comma; the
result always has one more element than there are commas, so it is never
empty. -/
def splitComma : Chars → List Chars
  | [] => [[]]
  | c :: cs =>
      if c = ',' then [] :: splitComma cs
      else
        match splitComma cs with
        | [] => [[c]]
        | g :: gs => (c :: g) :: gs

lemma splitComma_ne_nil (l : Chars) : splitComma l ≠ [] := by
  cases l with
  | nil => simp [splitComma]
  | cons c cs =>
      rw [splitComma]
      by_cases h : c = ','
      · simp [h]
      · rw [if_neg h]
        cases hs : splitComma cs <;> simp

lemma splitComma_no_comma {l : Chars} (h : ∀ c ∈ l, c ≠ ',') :
    splitComma l = [l] := by
  induction l with
  | nil => rfl
  | cons c cs ih =>
      rw [splitComma, if_neg (h c (List.mem_cons_self c cs))]
      rw [ih fun d hd => h d (List.mem_cons_of_mem c hd)]

lemma splitComma_append_comma {a b : Chars} (h : ∀ c ∈ a, c ≠ ',') :
    splitComma (a ++ ',' :: b) = a :: splitComma b := by
  induction a with
  | nil => simp [splitComma]
  | cons c cs ih =>
      rw [List.cons_append, splitComma, if_neg (h c (List.mem_cons_self c cs))]
      rw [ih fun d hd => h d (List.mem_cons_of_mem c hd)]

/-- One entry of a message's `content` list as the guard reads it
(src/main.py lines 69-72): the part's `"type"` field and the string at
`part["image_url"]["url"]`.  Parts that are not image attachments carry no
meaningful `url`; the guard never reads it for them. -/
structure ContentPart where
  ctype : Chars
  url : Chars

/-- A message's `content`: either a plain string or a list of typed parts
(the two shapes `isinstance(m.get("content"), list)` distinguishes,
src/main.py line 68). -/
inductive MsgContent where
  | str (s : Chars)
  | parts (ps : List ContentPart)

/-- One chat message: `role` and `content`. -/
structure Message where
  role : Chars
  content : MsgContent

/-- The condition of src/main.py line 70: the part's type equals
`"image_url"` and the substring `"data:image"` occurs in its URL. -/
def isImagePart (p : ContentPart) : Prop :=
  p.ctype = "image_url".data ∧ containsSub ("data:image".data) p.url = true

instance (p : ContentPart) : Decidable (isImagePart p) := by
  unfold isImagePart
  infer_instance

/-- A qualifying image part on which `url.split(",")[1]` does not raise:
its URL has at least one comma. -/
def partWellFormed (p : ContentPart) : Prop :=
  isImagePart p → 2 ≤ (splitComma p.url).length

/-- A qualifying image part whose extracted base64 payload
`url.split(",")[1]` is strictly longer than 3,000,000 characters. -/
def partOversized (p : ContentPart) : Prop :=
  isImagePart p ∧
    ∃ payload, (splitComma p.url).get? 1 = some payload ∧ 3000000 < payload.length

/-- A part whose extracted payload, if any, is within the size cap. -/
def partSmall (p : ContentPart) : Prop :=
  ∀ payload, (splitComma p.url).get? 1 = some payload → payload.length ≤ 3000000

/-- Every parts-shaped content of the message is scan-safe: no qualifying
part raises on `split(",")[1]`. -/
def msgWellFormed (m : Message) : Prop :=
  ∀ ps, m.content = MsgContent.parts ps → ∀ p ∈ ps, partWellFormed p

/-- How the pre-network scan of `create` can stop early: it found an
oversized image payload (and returns the sentinel), or `split(",")[1]`
raised `IndexError` on a comma-free URL. -/
inductive ScanStop where
  | tooLarge
  | indexError
deriving DecidableEq

/-- The guard loop over one message's parts (src/main.py lines 69-82):
for each part with type `"image_url"` whose URL mentions `"data:image"`,
extract `url.split(",")[1]` (raising when absent) and stop with the
sentinel as soon as one payload exceeds 3,000,000 characters. -/
def scanParts : List ContentPart → Option ScanStop
  | [] => none
  | p :: rest =>
      if isImagePart p then
        match (splitComma p.url).get? 1 with
        | none => some ScanStop.indexError
        | some payload =>
            if 3000000 < payload.length then some ScanStop.tooLarge
            else scanParts rest
      else scanParts rest

/-- The guard loop over all messages (src/main.py lines 67-82): only
list-shaped contents are inspected; string contents are skipped
untouched. -/
def scanMessages : List Message → Option ScanStop
  | [] => none
  | m :: rest =>
      match m.content with
      | MsgContent.str _ => scanMessages rest
      | MsgContent.parts ps =>
          match scanParts ps with
          | some o => some o
          | none => scanMessages rest

/-- The normalized response message (`choices[i].message` after
`_convert_to_objects`). -/
structure RespMessage where
  role : String
  content : String
deriving DecidableEq

/-- One normalized choice. -/
structure RespChoice where
  message : RespMessage
deriving DecidableEq

/-- The normalized response object: `_convert_to_objects` maps the JSON
dict one-to-one onto attribute access, so the model keeps exactly the
`choices[i].message.{role, content}` shape the callers consume. -/
structure Resp where
  choices : List RespChoice
deriving DecidableEq

/-- The sentinel returned when an image payload is oversized
(src/main.py lines 75-82). -/
def sentinelTooLarge : Resp :=
  ⟨[⟨⟨"assistant", "Image too large to process."⟩⟩]⟩

/-- The sentinel returned when the HTTP request times out
(src/main.py lines 102-109). -/
def sentinelTimeout : Resp :=
  ⟨[⟨⟨"assistant", "The LLM request timed out."⟩⟩]⟩

/-- The field access `response.choices[0].message.content` performed by the
caller (src/main.py line 161). -/
def topContent (r : Resp) : Option String :=
  r.choices.head?.map fun ch => ch.message.content

/-- Outcome of the `requests.post(..., timeout=60)` call as an oracle: the
call timed out (`requests.Timeout`); or an HTTP response arrived with the
given status code and a body that either parses to a normalized response or
is unparsable (`response.json()` raises); or some other transport exception
was raised. -/
inductive NetOutcome where
  | timeout
  | reply (status : ℕ) (body : Option Resp)
  | failure
deriving DecidableEq

/-- The exceptions `create` can let escape: the `IndexError` from
`split(",")[1]` before the `try` block, the parse error from
`response.json()`, and any other transport error, both re-raised by the
final `except` handler (src/main.py lines 110-112). -/
inductive CreateError where
  | indexError
  | parseError
  | transport
deriving DecidableEq

/-- `LocalLLMClient.Chat.Completions.create` (src/main.py lines 64-112),
with the network modelled by the `NetOutcome` oracle.  The boolean records
whether the HTTP POST was issued: the pre-network scan either short-circuits
with the oversized sentinel, raises `IndexError`, or falls through to the
network, whose timeout is absorbed into a sentinel, whose body is returned
as parsed regardless of status code, and whose other failures propagate. -/
def create (messages : List Message) (net : NetOutcome) :
    Bool × Except CreateError Resp :=
  match scanMessages messages with
  | some ScanStop.tooLarge => (false, Except.ok sentinelTooLarge)
  | some ScanStop.indexError => (false, Except.error CreateError.indexError)
  | none =>
      match net with
      | NetOutcome.timeout => (true, Except.ok sentinelTimeout)
      | NetOutcome.reply _ (some data) => (true, Except.ok data)
      | NetOutcome.reply _ none => (true, Except.error CreateError.parseError)
      | NetOutcome.failure => (true, Except.error CreateError.transport)

lemma scanParts_cons_skip {p : ContentPart} (rest : List ContentPart)
    (hip : ¬ isImagePart p) : scanParts (p :: rest) = scanParts rest := by
  rw [scanParts, if_neg hip]

lemma scanParts_cons_noPayload {p : ContentPart} (rest : List ContentPart)
    (hip : isImagePart p) (hpay : (splitComma p.url).get? 1 = none) :
    scanParts (p :: rest) = some ScanStop.indexError := by
  rw [scanParts, if_pos hip, hpay]

lemma scanParts_cons_payload {p : ContentPart} (rest : List ContentPart)
    (hip : isImagePart p) {payload : Chars}
    (hpay : (splitComma p.url).get? 1 = some payload) :
    scanParts (p :: rest) =
      if 3000000 < payload.length then some ScanStop.tooLarge
      else scanParts rest := by
  rw [scanParts, if_pos hip, hpay]

/-- A well-formed qualifying part always yields a payload. -/
lemma exists_payload_of_wellFormed {p : ContentPart} (hip : isImagePart p)
    (hwf : partWellFormed p) :
    ∃ payload, (splitComma p.url).get? 1 = some payload := by
  have hlen : 2 ≤ (splitComma p.url).length := hwf hip
  rcases hpay : (splitComma p.url).get? 1 with _ | payload
  · rw [List.get?_eq_none] at hpay
    omega
  · exact ⟨payload, rfl⟩

lemma scanParts_ne_indexError {ps : List ContentPart}
    (hwf : ∀ p ∈ ps, partWellFormed p) :
    scanParts ps ≠ some ScanStop.indexError := by
  induction ps with
  | nil => simp [scanParts]
  | cons p rest ih =>
      have ihr := ih fun q hq => hwf q (List.mem_cons_of_mem p hq)
      by_cases hip : isImagePart p
      · rcases exists_payload_of_wellFormed hip
          (hwf p (List.mem_cons_self p rest)) with ⟨payload, hpay⟩
        rw [scanParts_cons_payload rest hip hpay]
        by_cases hbig : 3000000 < payload.length
        · simp [hbig]
        · rw [if_neg hbig]
          exact ihr
      · rw [scanParts_cons_skip rest hip]
        exact ihr

lemma not_oversized_of_scanParts_none {ps : List ContentPart}
    (h : scanParts ps = none) : ∀ p ∈ ps, ¬ partOversized p := by
  induction ps with
  | nil => simp
  | cons p rest ih =>
      intro q hq hov
      by_cases hip : isImagePart p
      · rcases hpay : (splitComma p.url).get? 1 with _ | payload
        · rw [scanParts_cons_noPayload rest hip hpay] at h
          exact Option.noConfusion h
        · rw [scanParts_cons_payload rest hip hpay] at h
          by_cases hbig : 3000000 < payload.length
          · rw [if_pos hbig] at h
            exact Option.noConfusion h
          · rw [if_neg hbig] at h
            rcases List.mem_cons.mp hq with rfl | hq'
            · rcases hov.2 with ⟨payload', hpay', hbig'⟩
              rw [hpay] at hpay'
              exact hbig (Option.some.inj hpay' ▸ hbig')
            · exact ih h q hq' hov
      · rw [scanParts_cons_skip rest hip] at h
        rcases List.mem_cons.mp hq with rfl | hq'
        · exact hip hov.1
        · exact ih h q hq' hov

lemma scanParts_tooLarge {ps : List ContentPart}
    (hwf : ∀ p ∈ ps, partWellFormed p)
    (hov : ∃ p ∈ ps, partOversized p) :
    scanParts ps = some ScanStop.tooLarge := by
  induction ps with
  | nil => simp at hov
  | cons p rest ih =>
      have ihwf : ∀ q ∈ rest, partWellFormed q :=
        fun q hq => hwf q (List.mem_cons_of_mem p hq)
      by_cases hip : isImagePart p
      · rcases exists_payload_of_wellFormed hip
          (hwf p (List.mem_cons_self p rest)) with ⟨payload, hpay⟩
        rw [scanParts_cons_payload rest hip hpay]
        by_cases hbig : 3000000 < payload.length
        · rw [if_pos hbig]
        · rw [if_neg hbig]
          refine ih ihwf ?_
          rcases hov with ⟨q, hq, hqov⟩
          rcases List.mem_cons.mp hq with rfl | hq'
          · rcases hqov.2 with ⟨payload', hpay', hbig'⟩
            rw [hpay] at hpay'
            exact absurd (Option.some.inj hpay' ▸ hbig') hbig
          · exact ⟨q, hq', hqov⟩
      · rw [scanParts_cons_skip rest hip]
        refine ih ihwf ?_
        rcases hov with ⟨q, hq, hqov⟩
        rcases List.mem_cons.mp hq with rfl | hq'
        · exact absurd hqov.1 hip
        · exact ⟨q, hq', hqov⟩

lemma scanParts_none {ps : List ContentPart}
    (hwf : ∀ p ∈ ps, partWellFormed p) (hsm : ∀ p ∈ ps, partSmall p) :
    scanParts ps = none := by
  induction ps with
  | nil => rfl
  | cons p rest ih =>
      have ihr := ih (fun q hq => hwf q (List.mem_cons_of_mem p hq))
        (fun q hq => hsm q (List.mem_cons_of_mem p hq))
      by_cases hip : isImagePart p
      · rcases exists_payload_of_wellFormed hip
          (hwf p (List.mem_cons_self p rest)) with ⟨payload, hpay⟩
        have hsmall := hsm p (List.mem_cons_self p rest) payload hpay
        rw [scanParts_cons_payload rest hip hpay, if_neg (by omega)]
        exact ihr
      · rw [scanParts_cons_skip rest hip]
        exact ihr

lemma scanMessages_cons_str {m : Message} (rest : List Message) {s : Chars}
    (hc : m.content = MsgContent.str s) :
    scanMessages (m :: rest) = scanMessages rest := by
  rw [scanMessages, hc]

lemma scanMessages_cons_parts_stop {m : Message} (rest : List Message)
    {ps : List ContentPart} {o : ScanStop}
    (hc : m.content = MsgContent.parts ps) (ho : scanParts ps = some o) :
    scanMessages (m :: rest) = some o := by
  rw [scanMessages, hc]
  simp [ho]

lemma scanMessages_cons_parts_none {m : Message} (rest : List Message)
    {ps : List ContentPart} (hc : m.content = MsgContent.parts ps)
    (ho : scanParts ps = none) :
    scanMessages (m :: rest) = scanMessages rest := by
  rw [scanMessages, hc]
  simp [ho]

lemma scanMessages_tooLarge {msgs : List Message}
    (hwf : ∀ m ∈ msgs, msgWellFormed m)
    (hov : ∃ m ∈ msgs, ∃ ps, m.content = MsgContent.parts ps ∧
      ∃ p ∈ ps, partOversized p) :
    scanMessages msgs = some ScanStop.tooLarge := by
  induction msgs with
  | nil => simp at hov
  | cons m rest ih =>
      have ihwf : ∀ m' ∈ rest, msgWellFormed m' :=
        fun m' hm' => hwf m' (List.mem_cons_of_mem m hm')
      rcases hc : m.content with s | ps
      · rw [scanMessages_cons_str rest hc]
        refine ih ihwf ?_
        rcases hov with ⟨m', hm', ps', hps', hov'⟩
        rcases List.mem_cons.mp hm' with rfl | hm''
        · rw [hc] at hps'
          exact absurd hps' (by simp)
        · exact ⟨m', hm'', ps', hps', hov'⟩
      · have hwfp : ∀ p ∈ ps, partWellFormed p :=
          hwf m (List.mem_cons_self m rest) ps hc
        rcases hsp : scanParts ps with _ | o
        · rw [scanMessages_cons_parts_none rest hc hsp]
          refine ih ihwf ?_
          rcases hov with ⟨m', hm', ps', hps', p, hp, hpov⟩
          rcases List.mem_cons.mp hm' with rfl | hm''
          · rw [hc] at hps'
            have hps : ps = ps' := by injection hps'
            subst hps
            exact absurd hpov (not_oversized_of_scanParts_none hsp p hp)
          · exact ⟨m', hm'', ps', hps', p, hp, hpov⟩
        · cases o with
          | tooLarge => exact scanMessages_cons_parts_stop rest hc hsp
          | indexError => exact absurd hsp (scanParts_ne_indexError hwfp)

lemma scanMessages_none {msgs : List Message}
    (hwf : ∀ m ∈ msgs, msgWellFormed m)
    (hsm : ∀ m ∈ msgs, ∀ ps, m.content = MsgContent.parts ps →
      ∀ p ∈ ps, partSmall p) :
    scanMessages msgs = none := by
  induction msgs with
  | nil => rfl
  | cons m rest ih =>
      have ihr := ih (fun m' hm' => hwf m' (List.mem_cons_of_mem m hm'))
        (fun m' hm' => hsm m' (List.mem_cons_of_mem m hm'))
      rcases hc : m.content with s | ps
      · rw [scanMessages_cons_str rest hc]
        exact ihr
      · rw [scanMessages_cons_parts_none rest hc
          (scanParts_none (hwf m (List.mem_cons_self m rest) ps hc)
            (hsm m (List.mem_cons_self m rest) ps hc))]
        exact ihr

lemma scanMessages_all_str {msgs : List Message}
    (h : ∀ m ∈ msgs, ∃ s, m.content = MsgContent.str s) :
    scanMessages msgs = none := by
  induction msgs with
  | nil => rfl
  | cons m rest ih =>
      rcases h m (List.mem_cons_self m rest) with ⟨s, hs⟩
      rw [scanMessages_cons_str rest hs]
      exact ih fun m' hm' => h m' (List.mem_cons_of_mem m hm')

/-- C3. Any message list that contains a well-formed oversized image
attachment (base64 payload strictly longer than 3,000,000 characters) makes
`create` return the oversized sentinel without issuing the HTTP POST,
whatever the network would have answered; the sentinel's normalized
`choices[0].message.content` is exactly `"Image too large to process."`. -/
theorem create_image_too_large (msgs : List Message) (net : NetOutcome)
    (hwf : ∀ m ∈ msgs, msgWellFormed m)
    (hov : ∃ m ∈ msgs, ∃ ps, m.content = MsgContent.parts ps ∧
      ∃ p ∈ ps, partOversized p) :
    create msgs net = (false, Except.ok sentinelTooLarge) ∧
      topContent sentinelTooLarge = some "Image too large to process." := by
  constructor
  · rw [create.eq_def, scanMessages_tooLarge hwf hov]
  · rfl

/-- C4. When the guard passes and the HTTP call times out, `create` absorbs
the exception and returns the timeout sentinel, whose normalized
`choices[0].message.content` is exactly `"The LLM request timed out."`; in
particular the result is an ordinary value, not a propagated error. -/
theorem create_timeout_sentinel (msgs : List Message)
    (hscan : scanMessages msgs = none) :
    create msgs NetOutcome.timeout = (true, Except.ok sentinelTimeout) ∧
      topContent sentinelTimeout = some "The LLM request timed out." := by
  constructor
  · rw [create.eq_def, hscan]
  · rfl

/-- C8. When the guard passes: whatever the HTTP status code, a parsable
body is returned as the normalized result; an unparsable body propagates the
parse error; any other transport failure propagates; and `create` is fatal
exactly in those two cases. -/
theorem create_status_fatality (msgs : List Message)
    (hscan : scanMessages msgs = none) :
    (∀ (status : ℕ) (data : Resp),
      create msgs (NetOutcome.reply status (some data)) = (true, Except.ok data)) ∧
    (∀ status : ℕ, create msgs (NetOutcome.reply status none) =
      (true, Except.error CreateError.parseError)) ∧
    create msgs NetOutcome.failure = (true, Except.error CreateError.transport) ∧
    ∀ net : NetOutcome, (∃ e, (create msgs net).2 = Except.error e) ↔
      net = NetOutcome.failure ∨ ∃ status : ℕ, net = NetOutcome.reply status none := by
  refine ⟨?_, ?_, ?_, ?_⟩
  · intro status data
    rw [create.eq_def, hscan]
  · intro status
    rw [create.eq_def, hscan]
  · rw [create.eq_def, hscan]
  · intro net
    cases net with
    | timeout => rw [create.eq_def, hscan]; simp
    | reply status body =>
        cases body with
        | none => rw [create.eq_def, hscan]; simp
        | some data => rw [create.eq_def, hscan]; simp
    | failure => rw [create.eq_def, hscan]; simp

/-- C10. The payload guard compares strictly and inspects only list-shaped
contents: a message list whose well-formed image payloads are all of length
`≤ 3,000,000` (so one of exactly 3,000,000 passes) reaches the network, and
a message list of plain-string contents reaches the network no matter how
long the strings are. -/
theorem create_guard_strict_and_list_only :
    (∀ (msgs : List Message) (net : NetOutcome),
      (∀ m ∈ msgs, msgWellFormed m) →
      (∀ m ∈ msgs, ∀ ps, m.content = MsgContent.parts ps → ∀ p ∈ ps, partSmall p) →
      (create msgs net).1 = true) ∧
    (∀ (msgs : List Message) (net : NetOutcome),
      (∀ m ∈ msgs, ∃ s, m.content = MsgContent.str s) →
      (create msgs net).1 = true) := by
  constructor
  · intro msgs net hwf hsm
    rw [create.eq_def, scanMessages_none hwf hsm]
    cases net with
    | timeout => rfl
    | reply status body => cases body <;> rfl
    | failure => rfl
  · intro msgs net hstr
    rw [create.eq_def, scanMessages_all_str hstr]
    cases net with
    | timeout => rfl
    | reply status body => cases body <;> rfl
    | failure => rfl

/-- The data-URI prefix produced by `image_to_data_uri` /
`describe_image_with_llm` (src/main.py lines 138, 146). -/
def dataUriPre : Chars := "data:image/png;base64,".data

lemma dataUriPre_eq_comma :
    dataUriPre = "data:image/png;base64".data ++ [','] := by decide

lemma dataUri_split {payload : Chars} (hnc : ∀ c ∈ payload, c ≠ ',') :
    splitComma (dataUriPre ++ payload) =
      ["data:image/png;base64".data, payload] := by
  have hpre : ∀ c ∈ ("data:image/png;base64".data : Chars), c ≠ ',' := by decide
  rw [dataUriPre_eq_comma, List.append_assoc, List.singleton_append,
    splitComma_append_comma hpre, splitComma_no_comma hnc]

lemma dataUri_isImagePart (payload : Chars) :
    isImagePart ⟨"image_url".data, dataUriPre ++ payload⟩ := by
  refine ⟨rfl, (containsSub_iff _ _).mpr ?_⟩
  refine ⟨[], "/png;base64,".data ++ payload, ?_⟩
  have hpre : dataUriPre = "data:image".data ++ "/png;base64,".data := by decide
  rw [List.nil_append, hpre, List.append_assoc]

lemma dataUri_wellFormed {payload : Chars} (hnc : ∀ c ∈ payload, c ≠ ',') :
    partWellFormed ⟨"image_url".data, dataUriPre ++ payload⟩ := by
  intro _
  rw [dataUri_split hnc]
  exact Nat.le_refl 2

lemma replicate_A_no_comma (n : ℕ) :
    ∀ c ∈ List.replicate n 'A', c ≠ ',' := by
  intro c hc
  rw [List.eq_of_mem_replicate hc]
  decide

/-- A 3,000,001-character base64 payload: one character beyond the cap. -/
def exBigPayload : Chars := List.replicate 3000001 'A'

/-- A user message holding a single oversized image attachment. -/
def exBigMsg : Message :=
  ⟨"user".data, MsgContent.parts [⟨"image_url".data, dataUriPre ++ exBigPayload⟩]⟩

lemma exBigMsg_wellFormed : msgWellFormed exBigMsg := by
  intro ps hps p hp
  have h2 : MsgContent.parts
      [(⟨"image_url".data, dataUriPre ++ exBigPayload⟩ : ContentPart)] =
      MsgContent.parts ps := hps
  have h3 : ps =
      [(⟨"image_url".data, dataUriPre ++ exBigPayload⟩ : ContentPart)] := by
    injection h2 with h4
    exact h4.symm
  subst h3
  simp only [List.mem_singleton] at hp
  subst hp
  exact dataUri_wellFormed (replicate_A_no_comma 3000001)

lemma exBigMsg_oversized :
    ∃ m ∈ [exBigMsg], ∃ ps, m.content = MsgContent.parts ps ∧
      ∃ p ∈ ps, partOversized p := by
  refine ⟨exBigMsg, List.mem_singleton.mpr rfl,
    [⟨"image_url".data, dataUriPre ++ exBigPayload⟩], rfl,
    ⟨"image_url".data, dataUriPre ++ exBigPayload⟩, List.mem_singleton.mpr rfl,
    dataUri_isImagePart exBigPayload, exBigPayload, ?_, ?_⟩
  · show (splitComma (dataUriPre ++ exBigPayload)).get? 1 = some exBigPayload
    have hnc : ∀ c ∈ exBigPayload, c ≠ ',' := replicate_A_no_comma 3000001
    rw [dataUri_split hnc]
    rfl
  · rw [exBigPayload, List.length_replicate]
    omega

/-- Witness for C3: one concrete message whose attachment payload has
exactly 3,000,001 characters short-circuits to the oversized sentinel even
when the network oracle would have failed. -/
theorem create_image_too_large_witness :
    create [exBigMsg] NetOutcome.failure = (false, Except.ok sentinelTooLarge) :=
  (create_image_too_large [exBigMsg] NetOutcome.failure
    (fun m hm => by
      simp only [List.mem_singleton] at hm
      subst hm
      exact exBigMsg_wellFormed)
    exBigMsg_oversized).1

/-- A plain text-only user message (the fixed instruction text of
`describe_image_with_llm`). -/
def exTextMsg : Message :=
  ⟨"user".data, MsgContent.str "Describe this image in detail:".data⟩

/-- Witness for C4: with a concrete text-only message list the guard
passes and a timed-out call returns the timeout sentinel. -/
theorem create_timeout_sentinel_witness :
    scanMessages [exTextMsg] = none ∧
      create [exTextMsg] NetOutcome.timeout = (true, Except.ok sentinelTimeout) :=
  ⟨rfl, (create_timeout_sentinel [exTextMsg] rfl).1⟩

/-- Witness for C8: with a concrete text-only message list, a status-500
response with an unparsable body propagates the parse error after the
network call was made. -/
theorem create_status_fatality_witness :
    scanMessages [exTextMsg] = none ∧
      create [exTextMsg] (NetOutcome.reply 500 none) =
        (true, Except.error CreateError.parseError) :=
  ⟨rfl, (create_status_fatality [exTextMsg] rfl).2.1 500⟩

/-- A payload of exactly 3,000,000 characters: at the cap, not above it. -/
def exEdgePayload : Chars := List.replicate 3000000 'A'

/-- A user message holding a single image attachment at the size cap. -/
def exEdgeMsg : Message :=
  ⟨"user".data, MsgContent.parts [⟨"image_url".data, dataUriPre ++ exEdgePayload⟩]⟩

/-- A message whose content is a plain string longer than the cap. -/
def exHugeStrMsg : Message :=
  ⟨"user".data, MsgContent.str (List.replicate 3000001 'A')⟩

/-- Witness for C10: a concrete attachment of exactly 3,000,000 characters
reaches the network, and so does a plain-string message of 3,000,001
characters. -/
theorem create_guard_strict_and_list_only_witness :
    (create [exEdgeMsg] NetOutcome.timeout).1 = true ∧
      (create [exHugeStrMsg] NetOutcome.timeout).1 = true := by
  constructor
  · refine create_guard_strict_and_list_only.1 [exEdgeMsg] NetOutcome.timeout
      (fun m hm => ?_) (fun m hm ps hps p hp => ?_)
    · simp only [List.mem_singleton] at hm
      subst hm
      intro ps hps p hp
      have h2 : MsgContent.parts
          [(⟨"image_url".data, dataUriPre ++ exEdgePayload⟩ : ContentPart)] =
          MsgContent.parts ps := hps
      have h3 : ps =
          [(⟨"image_url".data, dataUriPre ++ exEdgePayload⟩ : ContentPart)] := by
        injection h2 with h4
        exact h4.symm
      subst h3
      simp only [List.mem_singleton] at hp
      subst hp
      exact dataUri_wellFormed (replicate_A_no_comma 3000000)
    · simp only [List.mem_singleton] at hm
      subst hm
      have h2 : MsgContent.parts
          [(⟨"image_url".data, dataUriPre ++ exEdgePayload⟩ : ContentPart)] =
          MsgContent.parts ps := hps
      have h3 : ps =
          [(⟨"image_url".data, dataUriPre ++ exEdgePayload⟩ : ContentPart)] := by
        injection h2 with h4
        exact h4.symm
      subst h3
      simp only [List.mem_singleton] at hp
      subst hp
      intro payload hpay
      have hnc : ∀ c ∈ exEdgePayload, c ≠ ',' := replicate_A_no_comma 3000000
      have hpay2 : (splitComma (dataUriPre ++ exEdgePayload)).get? 1 = some payload := hpay
      rw [dataUri_split hnc] at hpay2
      have hpay3 : some exEdgePayload = some payload := hpay2
      have hpl : payload = exEdgePayload := (Option.some.inj hpay3).symm
      subst hpl
      rw [exEdgePayload, List.length_replicate]
  · exact create_guard_strict_and_list_only.2 [exHugeStrMsg] NetOutcome.timeout
      (fun m hm => by
        simp only [List.mem_singleton] at hm
        subst hm
        exact ⟨List.replicate 3000001 'A', rfl⟩)
